import Mathlib

/-!
Shallow embedding of the DFA computation core of the Ramstric/DFA-Tool-Delfiniti
repository (src/DFA/DFA.py and src/DFA/old_DFA.py), together with theorems
checking the natural-language specification against it.

Modelling conventions:
* torch float tensors are modelled as `List ℚ` (exact arithmetic); the single
  irrational operation, the final `torch.sqrt`, is applied over `ℝ`.
* A Python computation that can raise, or that can return a NaN float, is
  modelled by the `Py` type below: `Py.ok v` (normal return), `Py.nan`
  (the function returns a NaN value without raising), `Py.exn e` (an
  exception of kind `e` propagates out).
* `scipy.stats.linregress` is modelled by its documented closed form
  slope = cov(x,y)/var(x); it raises `ValueError` on empty input or when all
  x values are identical with more than one sample, and produces NaN
  (0/0 division) on a single sample.
* The transcendental parts of the sweep (`torch.logspace`) are modelled over
  `ℝ` with `Real.logb` and `Real.rpow`.
-/

namespace DFATool

/-- Kinds of Python exceptions that the embedded code paths can raise. -/
inductive PyErr : Type where
  | runtimeError : PyErr
  | valueError : PyErr
  | zeroDivisionError : PyErr
  | indexError : PyErr
deriving DecidableEq

/-- Outcome of an embedded Python computation: a normal value, a NaN float
result (returned, not raised), or a propagating exception. -/
inductive Py (α : Type) : Type where
  | ok : α → Py α
  | nan : Py α
  | exn : PyErr → Py α
deriving DecidableEq

/-- True exactly when the outcome is a propagating exception. -/
def Py.isExn {α : Type} : Py α → Bool
  | .exn _ => true
  | _ => false

/-- True exactly when the outcome is a normal return value. -/
def Py.isOk {α : Type} : Py α → Bool
  | .ok _ => true
  | _ => false

/-- `tensor.mean()`: the arithmetic mean of a list (junk value 0 on `[]`). -/
def meanQ (l : List ℚ) : ℚ := l.sum / l.length

/-- Cumulative sums starting from accumulator `acc`. -/
def cumsumFrom (acc : ℚ) : List ℚ → List ℚ
  | [] => []
  | a :: t => (acc + a) :: cumsumFrom (acc + a) t

/-- `torch.cumsum(_, dim=0)`: the list of partial sums. -/
def cumsum (l : List ℚ) : List ℚ := cumsumFrom 0 l

/-- `torch.arange(1., n + 1)`: the values 1, 2, …, n. -/
def arange1 (n : ℕ) : List ℚ := (List.range n).map (fun i : ℕ => (i : ℚ) + 1)

/-- `tensor.unfold(0, size, step)`: the list of windows
`[l[i*step], …, l[i*step + size - 1]]`; the caller guards `size ≤ l.length`
(torch raises otherwise) and `0 < step`. -/
def unfoldT (l : List ℚ) (size step : ℕ) : List (List ℚ) :=
  (List.range ((l.length - size) / step + 1)).map
    (fun i => (l.drop (i * step)).take size)

/-- Sum of products of paired elements. -/
def dotL (xs ys : List ℚ) : ℚ := ((xs.zip ys).map (fun p => p.1 * p.2)).sum

/-- Centered second moment Σ (xᵢ − x̄)², the `ssxm` numerator of scipy. -/
def Sxx (xs : List ℚ) : ℚ := (xs.map (fun a => (a - meanQ xs) ^ 2)).sum

/-- Centered cross moment Σ (xᵢ − x̄)(yᵢ − ȳ), the `ssxym` numerator of scipy. -/
def Sxy (xs ys : List ℚ) : ℚ :=
  ((xs.zip ys).map (fun p => (p.1 - meanQ xs) * (p.2 - meanQ ys))).sum

/-- Result of `scipy.stats.linregress`: slope and intercept, a NaN result,
or a raised error. -/
inductive RegRes : Type where
  | ok : ℚ → ℚ → RegRes
  | nanRes : RegRes
  | err : PyErr → RegRes
deriving DecidableEq

/-- `scipy.stats.linregress(xs, ys)`.  Empty input raises `ValueError`
("Inputs must not be empty."); identical x values with more than one sample
raise `ValueError` ("Cannot calculate a linear regression …"); a single
sample yields NaN slope and intercept (0/0 in `ssxym / ssxm`); otherwise
slope = Sxy/Sxx and intercept = ȳ − slope·x̄. -/
def linregress (xs ys : List ℚ) : RegRes :=
  if xs.length = 0 ∨ ys.length = 0 then .err .valueError
  else if (∀ a ∈ xs, a = xs.headI) ∧ 1 < xs.length then .err .valueError
  else if xs.length = 1 then .nanRes
  else
    .ok (Sxy xs ys / Sxx xs) (meanQ ys - Sxy xs ys / Sxx xs * meanQ xs)

/-- Sequence a list of Python outcomes the way a Python `for` loop does:
the first exception (in order) propagates; otherwise, if any step produced
NaN, the aggregate is NaN; otherwise all values are collected. -/
def pySeq {α : Type} : List (Py α) → Py (List α)
  | [] => .ok []
  | .exn e :: _ => .exn e
  | .nan :: t =>
    match pySeq t with
    | .exn e => .exn e
    | _ => .nan
  | .ok a :: t =>
    match pySeq t with
    | .exn e => .exn e
    | .nan => .nan
    | .ok l => .ok (a :: l)

/-- Body of the per-window fitting loop of `DFA_Method` (DFA.py lines 51–53):
`linregress(numerate_windows[epoch], y_windows[epoch])`, then the fitted
values `slope * numerate_windows[epoch] + intercept`.  Indexing a tensor out
of range raises `IndexError`. -/
def fitRow (numerate_windows y_windows : List (List ℚ)) (epoch : ℕ) :
    Py (List ℚ) :=
  if epoch < numerate_windows.length then
    match linregress (numerate_windows.getD epoch []) (y_windows.getD epoch []) with
    | .err e => .exn e
    | .nanRes => .nan
    | .ok slope intercept =>
      .ok ((numerate_windows.getD epoch []).map (fun t => slope * t + intercept))
  else .exn .indexError

/-- `DFA_Method` of src/DFA/DFA.py up to (and excluding) the final
`torch.sqrt`: the value `fluctuation = torch.mean(sqrt_deviations)` of
line 61 — the mean of all squared residuals pooled over all windows.

Line-by-line: `y_sum = torch.cumsum(y - y.mean(), dim=0)` (line 36);
`n_windows = y_sum.size(0) // window_size` (line 40, `ZeroDivisionError`
when `window_size = 0`); `y_sum.unfold` and `x.unfold` (lines 42–43) raise
`RuntimeError` when `window_size` exceeds the corresponding length;
`numerate_windows = torch.arange(1., x.size(0) + 1).unfold(...)`
(lines 48–49); the fitting loop (lines 51–53); the pooled squared
deviations and their mean (lines 56–61).  Plotting is omitted: it does not
affect the returned value. -/
def DFA_Method_msq (x y : List ℚ) (window_size : ℕ) : Py ℚ :=
  let y_sum := cumsum (y.map (fun a => a - meanQ y))
  if window_size = 0 then .exn .zeroDivisionError
  else if y_sum.length < window_size then .exn .runtimeError
  else if x.length < window_size then .exn .runtimeError
  else
    let n_windows := y_sum.length / window_size
    let y_windows := unfoldT y_sum window_size window_size
    let numerate_windows := unfoldT (arange1 x.length) window_size window_size
    match pySeq ((List.range n_windows).map (fitRow numerate_windows y_windows)) with
    | .exn e => .exn e
    | .nan => .nan
    | .ok fitted_windows =>
      let deviations := (y_windows.zip fitted_windows).map
        (fun p => (p.1.zip p.2).map (fun q => q.1 - q.2))
      let sqrt_deviations := deviations.flatten.map (fun d => d ^ 2)
      .ok (meanQ sqrt_deviations)

/-- `DFA_Method` of src/DFA/DFA.py: the returned fluctuation
`F = torch.sqrt(fluctuation)` (line 63). -/
noncomputable def DFA_Method (x y : List ℚ) (window_size : ℕ) : Py ℝ :=
  match DFA_Method_msq x y window_size with
  | .ok q => .ok (Real.sqrt q)
  | .nan => .nan
  | .exn e => .exn e

namespace oldDFA

/-- `DFA_Method` of src/DFA/old_DFA.py up to the final `torch.sqrt`.
The executable statements (lines 34–58 and 80) are identical to the current
DFA.py; the remainder-folding step 5 (lines 61–77) is a string literal /
commented-out block and never executes. -/
def DFA_Method_msq (x y : List ℚ) (window_size : ℕ) : Py ℚ :=
  let y_sum := cumsum (y.map (fun a => a - meanQ y))
  if window_size = 0 then .exn .zeroDivisionError
  else if y_sum.length < window_size then .exn .runtimeError
  else if x.length < window_size then .exn .runtimeError
  else
    let n_windows := y_sum.length / window_size
    let y_windows := unfoldT y_sum window_size window_size
    let numerate_windows := unfoldT (arange1 x.length) window_size window_size
    match pySeq ((List.range n_windows).map (fitRow numerate_windows y_windows)) with
    | .exn e => .exn e
    | .nan => .nan
    | .ok fitted_windows =>
      let deviations := (y_windows.zip fitted_windows).map
        (fun p => (p.1.zip p.2).map (fun q => q.1 - q.2))
      let sqrt_deviations := deviations.flatten.map (fun d => d ^ 2)
      .ok (meanQ sqrt_deviations)

/-- `DFA_Method` of src/DFA/old_DFA.py: `F = torch.sqrt(fluctuation)`
(line 81). -/
noncomputable def DFA_Method (x y : List ℚ) (window_size : ℕ) : Py ℝ :=
  match DFA_Method_msq x y window_size with
  | .ok q => .ok (Real.sqrt q)
  | .nan => .nan
  | .exn e => .exn e

end oldDFA

/-! ### Specification-side definitions (for the refinement claim C1)

These follow the wording of spec.md §4.1: integrate once, partition into
`floor(N/w)` complete windows, fit each window by ordinary least squares
against the (global) sample-index regressor, pool all squared residuals
and return the square root of their mean. -/

/-- Spec: "the cumulative sum of (amplitude − mean(amplitude))". -/
def specIntegrated (y : List ℚ) : List ℚ := cumsum (y.map (fun a => a - meanQ y))

/-- Spec: the `i`-th contiguous non-overlapping window of size `w`. -/
def windowSlice (s : List ℚ) (w i : ℕ) : List ℚ := (s.drop (i * w)).take w

/-- The integer sample-index regressor of window `i`: the global indices
`i*w + 1, …, i*w + w`. -/
def idxWindow (w i : ℕ) : List ℚ :=
  (List.range w).map (fun j : ℕ => ((i * w + j : ℕ) : ℚ) + 1)

/-- The ordinary-least-squares slope for `ys` against regressor `xs`. -/
def olsSlope (xs ys : List ℚ) : ℚ := Sxy xs ys / Sxx xs

/-- The ordinary-least-squares intercept for `ys` against regressor `xs`. -/
def olsIntercept (xs ys : List ℚ) : ℚ := meanQ ys - olsSlope xs ys * meanQ xs

/-- Ordinary-least-squares residuals of `ys` against regressor `xs`
(closed form: slope = Sxy/Sxx, intercept = ȳ − slope·x̄). -/
def specResiduals (xs ys : List ℚ) : List ℚ :=
  (xs.zip ys).map
    (fun p => p.2 - (olsSlope xs ys * p.1 + olsIntercept xs ys))

/-- Spec: all squared residuals from all complete windows, pooled into one
flat collection. -/
def pooledSqResiduals (y : List ℚ) (w : ℕ) : List ℚ :=
  ((List.range (y.length / w)).map
    (fun i => (specResiduals (idxWindow w i) (windowSlice (specIntegrated y) w i)).map
      (fun r => r ^ 2))).flatten

/-- Spec: the mean of the pooled squared residuals. -/
def specMSQ (y : List ℚ) (w : ℕ) : ℚ := meanQ (pooledSqResiduals y w)

/-- Spec: `F = sqrt(mean(all squared residuals))`. -/
noncomputable def specF (y : List ℚ) (w : ℕ) : ℝ := Real.sqrt (specMSQ y w)

/-! ### The sweep `DFA_F_Plot` (src/DFA/DFA.py lines 126–151) -/

/-- `torch.linspace(a, b, steps)`: `steps` evenly spaced points from `a` to
`b` inclusive (`[a]` when `steps = 1`: the `0 * _ / 0` term vanishes). -/
noncomputable def linspaceT (a b : ℝ) (steps : ℕ) : List ℝ :=
  (List.range steps).map (fun i : ℕ => a + (i : ℝ) * (b - a) / ((steps : ℝ) - 1))

/-- `torch.logspace(start, end, steps, base=10)`. -/
noncomputable def logspaceT (a b : ℝ) (steps : ℕ) : List ℝ :=
  (linspaceT a b steps).map (fun t => (10 : ℝ) ^ t)

/-- `torch.round`: round half to even (bankers' rounding). -/
noncomputable def roundEven (r : ℝ) : ℤ :=
  if Int.fract r < 1 / 2 then ⌊r⌋
  else if 1 / 2 < Int.fract r then ⌊r⌋ + 1
  else if Even ⌊r⌋ then ⌊r⌋ else ⌊r⌋ + 1

/-- `torch.unique` (default `sorted=True`): the distinct values in
ascending order. -/
def sortedUnique (l : List ℤ) : List ℤ := l.toFinset.sort (· ≤ ·)

/-- `Windows_sizes` of `DFA_F_Plot` (lines 126–133): `N = x.size(0)`,
`max_window_size = N / 4` (true division), logarithmically spaced sizes,
rounded, then deduplicated in ascending order. -/
noncomputable def Windows_sizes (N initial steps : ℕ) : List ℤ :=
  sortedUnique
    ((logspaceT (Real.logb 10 initial) (Real.logb 10 ((N : ℝ) / 4)) steps).map roundEven)

/-- The sweep loop of `DFA_F_Plot` (lines 135–142): for each realized window
size `s` (as `torch.Tensor.int(i)`), invoke `DFA_Method` and collect the
pair `(s, F)`; any exception aborts the sweep, a NaN `F` makes the
aggregate NaN. -/
noncomputable def fluctuationPoints (x y : List ℚ) (initial steps : ℕ) :
    Py (List (ℤ × ℝ)) :=
  pySeq ((Windows_sizes x.length initial steps).map
    (fun s =>
      match DFA_Method x y s.toNat with
      | .ok F => .ok (s, F)
      | .nan => .nan
      | .exn e => .exn e))

/-- An IEEE float value as produced by `torch.log10`: finite, `-inf`, or NaN. -/
inductive FloatV : Type where
  | fin : ℝ → FloatV
  | negInf : FloatV
  | nanV : FloatV

/-- `torch.log10` on one element: negative input gives NaN, zero gives
`-inf`, positive input gives the finite logarithm. -/
noncomputable def log10T (r : ℝ) : FloatV :=
  if r < 0 then .nanV else if r = 0 then .negInf else .fin (Real.logb 10 r)

/-- The log-transform step `F_RMS_log = torch.log10(F_RMS)` (line 145). -/
noncomputable def logStep (Fs : List ℝ) : List FloatV := Fs.map log10T

/-- `DFA_F_Plot` through line 145: the sweep followed by the log transform
of the collected F values.  No error of any kind is raised at the log step;
a zero F simply becomes `-inf`. -/
noncomputable def sweepLogs (x y : List ℚ) (initial steps : ℕ) : Py (List FloatV) :=
  match fluctuationPoints x y initial steps with
  | .ok pts => .ok (logStep (pts.map Prod.snd))
  | .nan => .nan
  | .exn e => .exn e

/-! ### Basic structural lemmas -/

theorem cumsumFrom_length (acc : ℚ) (l : List ℚ) :
    (cumsumFrom acc l).length = l.length := by
  induction l generalizing acc with
  | nil => rfl
  | cons a t ih => simp [cumsumFrom, ih]

theorem cumsum_length (l : List ℚ) : (cumsum l).length = l.length :=
  cumsumFrom_length 0 l

theorem arange1_length (n : ℕ) : (arange1 n).length = n := by
  rw [arange1, List.length_map, List.length_range]

theorem arange1_getElem (n k : ℕ) (h : k < (arange1 n).length) :
    (arange1 n)[k] = (k : ℚ) + 1 := by
  simp only [arange1, List.getElem_map, List.getElem_range]

theorem cumsumFrom_getElem (acc : ℚ) (l : List ℚ) (k : ℕ)
    (h : k < (cumsumFrom acc l).length) :
    (cumsumFrom acc l)[k] = acc + (l.take (k + 1)).sum := by
  induction l generalizing acc k with
  | nil => simp [cumsumFrom] at h
  | cons a t ih =>
    cases k with
    | zero => simp [cumsumFrom]
    | succ k =>
      have h' : k < (cumsumFrom (acc + a) t).length := by
        simpa [cumsumFrom, Nat.succ_lt_succ_iff] using h
      simp only [cumsumFrom, List.getElem_cons_succ]
      rw [ih (acc + a) k h', List.take_succ_cons, List.sum_cons]
      ring

theorem sum_map_sub_const (l : List ℚ) (c : ℚ) :
    (l.map (fun a => a - c)).sum = l.sum - l.length * c := by
  induction l with
  | nil => simp
  | cons a t ih =>
    simp only [List.map_cons, List.sum_cons, List.length_cons, ih]
    push_cast
    ring

theorem specIntegrated_length (y : List ℚ) :
    (specIntegrated y).length = y.length := by
  simp [specIntegrated, cumsum_length]

theorem specIntegrated_getElem (y : List ℚ) (k : ℕ)
    (h : k < (specIntegrated y).length) :
    (specIntegrated y)[k] = (y.take (k + 1)).sum - ((k : ℚ) + 1) * meanQ y := by
  have hk : k < y.length := by simpa [specIntegrated_length] using h
  show (cumsumFrom 0 ((y.map (fun a => a - meanQ y))))[k] = _
  rw [cumsumFrom_getElem 0 _ k (by simpa [cumsumFrom_length] using hk)]
  rw [← List.map_take, sum_map_sub_const]
  have hlen : ((y.take (k + 1)).length : ℚ) = (k : ℚ) + 1 := by
    rw [List.length_take]
    have : min (k + 1) y.length = k + 1 := by omega
    rw [this]
    push_cast
    ring
  rw [hlen]
  ring

theorem unfoldT_length (l : List ℚ) (w : ℕ) (hw : 0 < w) (hle : w ≤ l.length) :
    (unfoldT l w w).length = l.length / w := by
  simp only [unfoldT, List.length_map, List.length_range]
  exact (Nat.div_eq_sub_div hw hle).symm

theorem unfoldT_getElem (l : List ℚ) (w i : ℕ) (h : i < (unfoldT l w w).length) :
    (unfoldT l w w)[i] = windowSlice l w i := by
  simp [unfoldT, windowSlice]

theorem windowSlice_length (s : List ℚ) (w i : ℕ) (h : i * w + w ≤ s.length) :
    (windowSlice s w i).length = w := by
  simp only [windowSlice, List.length_take, List.length_drop]
  omega

theorem windowSlice_getElem (s : List ℚ) (w i j : ℕ)
    (h : j < (windowSlice s w i).length) (h2 : i * w + j < s.length) :
    (windowSlice s w i)[j] = s[i * w + j] := by
  simp only [windowSlice] at h ⊢
  rw [List.getElem_take, List.getElem_drop]

theorem idxWindow_length (w i : ℕ) : (idxWindow w i).length = w := by
  simp [idxWindow]

theorem idxWindow_getElem (w i j : ℕ) (h : j < (idxWindow w i).length) :
    (idxWindow w i)[j] = ((i * w + j : ℕ) : ℚ) + 1 := by
  simp [idxWindow]

theorem idxWindow_headI (w i : ℕ) (hw : 0 < w) :
    (idxWindow w i).headI = ((i * w : ℕ) : ℚ) + 1 := by
  cases w with
  | zero => omega
  | succ m =>
    simp [idxWindow, List.range_succ_eq_map]

theorem idxWindow_eq_slice (n w i : ℕ) (h : i * w + w ≤ n) :
    windowSlice (arange1 n) w i = idxWindow w i := by
  apply List.ext_getElem
  · rw [windowSlice_length _ _ _ (by rwa [arange1_length]), idxWindow_length]
  · intro j h1 h2
    have hj : j < w := by rwa [idxWindow_length] at h2
    have hb : i * w + j < (arange1 n).length := by rw [arange1_length]; omega
    rw [windowSlice_getElem _ _ _ _ h1 hb, idxWindow_getElem _ _ _ h2,
      arange1_getElem _ _ hb]

/-! ### Sum expansions for the least-squares algebra -/

theorem zip_sum_affine (m b : ℚ) (xs ys : List ℚ) (h : xs.length = ys.length) :
    ((xs.zip ys).map (fun p => p.2 - (m * p.1 + b))).sum
      = ys.sum - m * xs.sum - (xs.length : ℚ) * b := by
  induction xs generalizing ys with
  | nil =>
    cases ys with
    | nil => simp
    | cons c u => simp at h
  | cons a t ih =>
    cases ys with
    | nil => simp at h
    | cons c u =>
      simp only [List.zip_cons_cons, List.map_cons, List.sum_cons,
        List.length_cons] at h ⊢
      rw [ih u (by omega)]
      push_cast
      ring

theorem zip_sum_affine_mul (m b : ℚ) (xs ys : List ℚ) (h : xs.length = ys.length) :
    ((xs.zip ys).map (fun p => (p.2 - (m * p.1 + b)) * p.1)).sum
      = dotL xs ys - m * dotL xs xs - b * xs.sum := by
  induction xs generalizing ys with
  | nil =>
    cases ys with
    | nil => simp [dotL]
    | cons c u => simp at h
  | cons a t ih =>
    cases ys with
    | nil => simp at h
    | cons c u =>
      simp only [List.zip_cons_cons, List.map_cons, List.sum_cons,
        List.length_cons, dotL] at h ⊢
      have := ih u (by omega)
      simp only [dotL] at this
      rw [this]
      ring

theorem zip_sum_center (u v : ℚ) (xs ys : List ℚ) (h : xs.length = ys.length) :
    ((xs.zip ys).map (fun p => (p.1 - u) * (p.2 - v))).sum
      = dotL xs ys - u * ys.sum - v * xs.sum + (xs.length : ℚ) * (u * v) := by
  induction xs generalizing ys with
  | nil =>
    cases ys with
    | nil => simp [dotL]
    | cons c t => simp at h
  | cons a t ih =>
    cases ys with
    | nil => simp at h
    | cons c w
    =>
      simp only [List.zip_cons_cons, List.map_cons, List.sum_cons,
        List.length_cons, dotL] at h ⊢
      have := ih w (by omega)
      simp only [dotL] at this
      rw [this]
      push_cast
      ring

theorem sum_sq_center (u : ℚ) (xs : List ℚ) :
    (xs.map (fun a => (a - u) ^ 2)).sum
      = dotL xs xs - 2 * u * xs.sum + (xs.length : ℚ) * u ^ 2 := by
  induction xs with
  | nil => simp [dotL]
  | cons a t ih =>
    simp only [List.map_cons, List.sum_cons, List.length_cons, dotL,
      List.zip_cons_cons] at ih ⊢
    rw [ih]
    push_cast
    ring

theorem zip_sum_sq_expand (m b m' b' : ℚ) (xs ys : List ℚ) :
    ((xs.zip ys).map (fun p => (p.2 - (m' * p.1 + b')) ^ 2)).sum
      = ((xs.zip ys).map (fun p => (p.2 - (m * p.1 + b)) ^ 2)).sum
        + 2 * (m - m') * ((xs.zip ys).map (fun p => (p.2 - (m * p.1 + b)) * p.1)).sum
        + 2 * (b - b') * ((xs.zip ys).map (fun p => p.2 - (m * p.1 + b))).sum
        + ((xs.zip ys).map (fun p => ((m - m') * p.1 + (b - b')) ^ 2)).sum := by
  induction xs generalizing ys with
  | nil => simp
  | cons a t ih =>
    cases ys with
    | nil => simp
    | cons c u =>
      simp only [List.zip_cons_cons, List.map_cons, List.sum_cons]
      rw [ih u]
      ring

theorem zip_sub_fit (m b : ℚ) (xs ys : List ℚ) (h : xs.length = ys.length) :
    (ys.zip (xs.map (fun t => m * t + b))).map (fun q => q.1 - q.2)
      = (xs.zip ys).map (fun p => p.2 - (m * p.1 + b)) := by
  induction xs generalizing ys with
  | nil =>
    cases ys with
    | nil => simp
    | cons c u => simp at h
  | cons a t ih =>
    cases ys with
    | nil => simp at h
    | cons c u =>
      simp only [List.map_cons, List.zip_cons_cons]
      rw [ih u (by simpa using h)]

theorem window_bound {i w N : ℕ} (hi : i < N / w) : i * w + w ≤ N := by
  have h2 : (i + 1) * w ≤ (N / w) * w := Nat.mul_le_mul_right w hi
  have h3 : (N / w) * w ≤ N := Nat.div_mul_le_self N w
  calc i * w + w = (i + 1) * w := by ring
  _ ≤ N := le_trans h2 h3

/-! ### Nonnegativity and positivity of `Sxx` -/

theorem Sxx_nonneg (xs : List ℚ) : 0 ≤ Sxx xs := by
  apply List.sum_nonneg
  intro a ha
  obtain ⟨b, _, rfl⟩ := List.mem_map.mp ha
  exact sq_nonneg _

theorem sum_sq_eq_zero {l : List ℚ} {u : ℚ}
    (h : (l.map (fun a => (a - u) ^ 2)).sum = 0) : ∀ a ∈ l, a = u := by
  induction l with
  | nil => simp
  | cons b t ih =>
    simp only [List.map_cons, List.sum_cons] at h
    have h1 : (0 : ℚ) ≤ (b - u) ^ 2 := sq_nonneg _
    have h2 : (0 : ℚ) ≤ (t.map (fun a => (a - u) ^ 2)).sum := by
      apply List.sum_nonneg
      intro a ha
      obtain ⟨c, _, rfl⟩ := List.mem_map.mp ha
      exact sq_nonneg _
    have hb : (b - u) ^ 2 = 0 := by linarith
    have ht : (t.map (fun a => (a - u) ^ 2)).sum = 0 := by linarith
    intro a ha
    rcases List.mem_cons.mp ha with rfl | ha
    · have := sq_eq_zero_iff.mp hb
      linarith
    · exact ih ht a ha

theorem Sxx_pos {xs : List ℚ} {i j : ℕ} (hi : i < xs.length) (hj : j < xs.length)
    (hne : xs[i] ≠ xs[j]) : 0 < Sxx xs := by
  rcases (Sxx_nonneg xs).lt_or_eq with hpos | heq
  · exact hpos
  · exfalso
    have hall := sum_sq_eq_zero (l := xs) (u := meanQ xs) heq.symm
    have h1 := hall xs[i] (List.getElem_mem hi)
    have h2 := hall xs[j] (List.getElem_mem hj)
    exact hne (h1.trans h2.symm)

/-! ### `pySeq` lemmas -/

theorem pySeq_cons_ok {α : Type} (a : α) (t : List (Py α)) :
    pySeq (.ok a :: t)
      = match pySeq t with
        | .exn e => .exn e
        | .nan => .nan
        | .ok l => .ok (a :: l) := rfl

theorem pySeq_cons_nan {α : Type} (t : List (Py α)) :
    pySeq (.nan :: t)
      = match pySeq t with
        | .exn e => .exn e
        | _ => .nan := rfl

theorem pySeq_cons_exn {α : Type} (e : PyErr) (t : List (Py α)) :
    pySeq (.exn e :: t) = .exn e := rfl

theorem pySeq_map_ok {α β : Type} (l : List α) (g : α → Py β) (f : α → β)
    (h : ∀ a ∈ l, g a = .ok (f a)) : pySeq (l.map g) = .ok (l.map f) := by
  induction l with
  | nil => rfl
  | cons a t ih =>
    simp only [List.map_cons]
    rw [h a (List.mem_cons_self a t), pySeq_cons_ok,
      ih (fun b hb => h b (List.mem_cons_of_mem a hb))]

theorem pySeq_all_nan {α : Type} (l : List (Py α)) (hne : l ≠ [])
    (h : ∀ p ∈ l, p = .nan) : pySeq l = .nan := by
  induction l with
  | nil => exact absurd rfl hne
  | cons a t ih =>
    rw [h a (List.mem_cons_self a t), pySeq_cons_nan]
    cases t with
    | nil => rfl
    | cons b u =>
      rw [ih (by simp) (fun p hp => h p (List.mem_cons_of_mem a hp))]

/-! ### `linregress` on well-posed inputs -/

theorem linregress_ok (xs ys : List ℚ) (h2 : 2 ≤ xs.length)
    (hy : ys.length ≠ 0) (hne : ∃ a ∈ xs, a ≠ xs.headI) :
    linregress xs ys = .ok (olsSlope xs ys) (olsIntercept xs ys) := by
  obtain ⟨a, ha, hane⟩ := hne
  unfold linregress
  rw [if_neg, if_neg, if_neg]
  · rfl
  · omega
  · rintro ⟨hall, -⟩
    exact hane (hall a ha)
  · push_neg
    constructor <;> omega

/-! ### The core refinement: `DFA_Method` computes the spec value -/

theorem idxWindow_two_ne (w i : ℕ) (hw : 2 ≤ w) :
    ∃ a ∈ idxWindow w i, a ≠ (idxWindow w i).headI := by
  have h1 : 1 < (idxWindow w i).length := by rw [idxWindow_length]; omega
  refine ⟨(idxWindow w i)[1], List.getElem_mem h1, ?_⟩
  rw [idxWindow_getElem _ _ _ h1, idxWindow_headI w i (by omega)]
  push_cast
  intro hcon
  norm_num at hcon

theorem unfoldT_getD (l : List ℚ) (w i : ℕ) (h : i < (unfoldT l w w).length) :
    (unfoldT l w w).getD i [] = windowSlice l w i := by
  rw [List.getD_eq_getElem _ _ h, unfoldT_getElem]

theorem DFA_Method_msq_ok (x y : List ℚ) (w : ℕ) (hw : 2 ≤ w)
    (hwy : w ≤ y.length) (hxy : x.length = y.length) :
    DFA_Method_msq x y w = .ok (specMSQ y w) := by
  have hw0 : 0 < w := by omega
  have hs_len : (cumsum (y.map (fun a => a - meanQ y))).length = y.length := by
    rw [cumsum_length, List.length_map]
  have hnum_len :
      (unfoldT (arange1 x.length) w w).length = y.length / w := by
    rw [unfoldT_length _ _ hw0 (by rw [arange1_length]; omega), arange1_length, hxy]
  have hywin_len :
      (unfoldT (cumsum (y.map (fun a => a - meanQ y))) w w).length
        = y.length / w := by
    rw [unfoldT_length _ _ hw0 (by rw [hs_len]; omega), hs_len]
  simp only [DFA_Method_msq]
  rw [if_neg (by omega : ¬ w = 0),
    if_neg (by rw [hs_len]; omega :
      ¬ (cumsum (y.map (fun a => a - meanQ y))).length < w),
    if_neg (by omega : ¬ x.length < w)]
  rw [hs_len]
  have hrows : ∀ i ∈ List.range (y.length / w),
      fitRow (unfoldT (arange1 x.length) w w)
          (unfoldT (cumsum (y.map (fun a => a - meanQ y))) w w) i
        = .ok ((idxWindow w i).map (fun t =>
            olsSlope (idxWindow w i)
                (windowSlice (specIntegrated y) w i) * t
              + olsIntercept (idxWindow w i)
                (windowSlice (specIntegrated y) w i))) := by
    intro i hi
    have hiN : i < y.length / w := List.mem_range.mp hi
    have hib : i * w + w ≤ y.length := window_bound hiN
    have hnum : (unfoldT (arange1 x.length) w w).getD i [] = idxWindow w i := by
      rw [unfoldT_getD _ _ _ (by rw [hnum_len]; exact hiN)]
      exact idxWindow_eq_slice x.length w i (by omega)
    have hyw : (unfoldT (cumsum (y.map (fun a => a - meanQ y))) w w).getD i []
        = windowSlice (specIntegrated y) w i := by
      rw [unfoldT_getD _ _ _ (by rw [hywin_len]; exact hiN)]
      rfl
    unfold fitRow
    rw [if_pos (by rw [hnum_len]; exact hiN), hnum, hyw]
    rw [linregress_ok _ _ (by rw [idxWindow_length]; exact hw)
      (by rw [windowSlice_length _ _ _ (by rw [specIntegrated_length]; omega)]; omega)
      (idxWindow_two_ne w i hw)]
  rw [pySeq_map_ok _ _ _ hrows]
  refine congrArg Py.ok ?_
  have hywin_eq :
      unfoldT (cumsum (y.map (fun a => a - meanQ y))) w w
        = (List.range (y.length / w)).map
            (fun i => windowSlice (specIntegrated y) w i) := by
    apply List.ext_getElem
    · rw [hywin_len, List.length_map, List.length_range]
    · intro i h1 h2
      rw [unfoldT_getElem]
      simp only [List.getElem_map, List.getElem_range]
      rfl
  rw [hywin_eq, List.zip_map', List.map_map]
  have hinner : ∀ i ∈ List.range (y.length / w),
      ((fun p : List ℚ × List ℚ => (p.1.zip p.2).map (fun q => q.1 - q.2)) ∘
        (fun i => (windowSlice (specIntegrated y) w i,
          (idxWindow w i).map (fun t =>
            olsSlope (idxWindow w i) (windowSlice (specIntegrated y) w i) * t
              + olsIntercept (idxWindow w i)
                  (windowSlice (specIntegrated y) w i))))) i
        = specResiduals (idxWindow w i) (windowSlice (specIntegrated y) w i) := by
    intro i hi
    have hiN : i < y.length / w := List.mem_range.mp hi
    have hlen : (idxWindow w i).length
        = (windowSlice (specIntegrated y) w i).length := by
      rw [idxWindow_length,
        windowSlice_length _ _ _ (by rw [specIntegrated_length]; exact window_bound hiN)]
    simp only [Function.comp]
    rw [zip_sub_fit _ _ _ _ hlen]
    rfl
  rw [List.map_congr_left hinner]
  rw [List.map_flatten, List.map_map]
  rfl

/-! ### Normal equations and optimality of the closed-form fit -/

theorem meanQ_mul_length (l : List ℚ) (h : l.length ≠ 0) :
    (l.length : ℚ) * meanQ l = l.sum := by
  unfold meanQ
  rw [mul_div_assoc']
  rw [mul_comm]
  rw [mul_div_assoc]
  rw [div_self (by exact_mod_cast h), mul_one]

theorem ols_residual_sum (xs ys : List ℚ) (hlen : xs.length = ys.length)
    (hn : xs.length ≠ 0) :
    ((xs.zip ys).map
      (fun p => p.2 - (olsSlope xs ys * p.1 + olsIntercept xs ys))).sum = 0 := by
  rw [zip_sum_affine _ _ _ _ hlen]
  have hx : (xs.length : ℚ) * meanQ xs = xs.sum := meanQ_mul_length xs hn
  have hy : (xs.length : ℚ) * meanQ ys = ys.sum := by
    rw [hlen]
    exact meanQ_mul_length ys (by omega)
  rw [hlen] at hy
  rw [← hlen] at hy
  unfold olsIntercept
  linear_combination (-1 : ℚ) * hy + olsSlope xs ys * hx

theorem ols_residual_dot (xs ys : List ℚ) (hlen : xs.length = ys.length)
    (hn : xs.length ≠ 0) (hS : Sxx xs ≠ 0) :
    ((xs.zip ys).map
      (fun p => (p.2 - (olsSlope xs ys * p.1 + olsIntercept xs ys)) * p.1)).sum
      = 0 := by
  rw [zip_sum_affine_mul _ _ _ _ hlen]
  have hx : (xs.length : ℚ) * meanQ xs = xs.sum := meanQ_mul_length xs hn
  have hy : (xs.length : ℚ) * meanQ ys = ys.sum := by
    rw [hlen]
    exact meanQ_mul_length ys (by omega)
  have hSxy : Sxy xs ys = dotL xs ys - meanQ xs * ys.sum - meanQ ys * xs.sum
      + (xs.length : ℚ) * (meanQ xs * meanQ ys) :=
    zip_sum_center (meanQ xs) (meanQ ys) xs ys hlen
  have hSxx : Sxx xs = dotL xs xs - 2 * meanQ xs * xs.sum
      + (xs.length : ℚ) * meanQ xs ^ 2 := sum_sq_center (meanQ xs) xs
  have hm : olsSlope xs ys * Sxx xs = Sxy xs ys := by
    unfold olsSlope
    exact div_mul_cancel₀ _ hS
  unfold olsIntercept
  linear_combination (-1 : ℚ) * hSxy + olsSlope xs ys * hSxx
    + (-1 : ℚ) * hm + (-(meanQ xs)) * hy + (olsSlope xs ys * meanQ xs) * hx

theorem ols_min (xs ys : List ℚ) (hlen : xs.length = ys.length)
    (hn : xs.length ≠ 0) (hS : Sxx xs ≠ 0) (m' b' : ℚ) :
    ((specResiduals xs ys).map (fun r => r ^ 2)).sum
      ≤ ((xs.zip ys).map (fun p => (p.2 - (m' * p.1 + b')) ^ 2)).sum := by
  have hexp := zip_sum_sq_expand (olsSlope xs ys) (olsIntercept xs ys) m' b' xs ys
  rw [ols_residual_sum xs ys hlen hn, ols_residual_dot xs ys hlen hn hS] at hexp
  simp only [mul_zero, add_zero] at hexp
  have hnonneg : 0 ≤ ((xs.zip ys).map
      (fun p => ((olsSlope xs ys - m') * p.1 + (olsIntercept xs ys - b')) ^ 2)).sum := by
    apply List.sum_nonneg
    intro a ha
    obtain ⟨p, _, rfl⟩ := List.mem_map.mp ha
    exact sq_nonneg _
  have hres : ((specResiduals xs ys).map (fun r => r ^ 2)).sum
      = ((xs.zip ys).map
          (fun p => (p.2 - (olsSlope xs ys * p.1 + olsIntercept xs ys)) ^ 2)).sum := by
    unfold specResiduals
    rw [List.map_map]
    rfl
  rw [hres]
  linarith

theorem DFA_Method_ok (x y : List ℚ) (w : ℕ) (hw : 2 ≤ w)
    (hwy : w ≤ y.length) (hxy : x.length = y.length) :
    DFA_Method x y w = .ok (specF y w) := by
  unfold DFA_Method
  rw [DFA_Method_msq_ok x y w hw hwy hxy]
  rfl

/-! ### Failure and NaN paths of `DFA_Method` -/

theorem DFA_Method_msq_overlong (x y : List ℚ) (w : ℕ) (hlen : y.length < w) :
    DFA_Method_msq x y w = .exn .runtimeError := by
  simp only [DFA_Method_msq]
  rw [if_neg (by omega : ¬ w = 0),
    if_pos (by rw [cumsum_length, List.length_map]; omega)]

theorem DFA_Method_overlong (x y : List ℚ) (w : ℕ) (hlen : y.length < w) :
    DFA_Method x y w = .exn .runtimeError := by
  unfold DFA_Method
  rw [DFA_Method_msq_overlong x y w hlen]

theorem DFA_Method_msq_one (x y : List ℚ) (hxy : x.length = y.length)
    (hy : 1 ≤ y.length) : DFA_Method_msq x y 1 = .nan := by
  have hs_len : (cumsum (y.map (fun a => a - meanQ y))).length = y.length := by
    rw [cumsum_length, List.length_map]
  have hnum_len : (unfoldT (arange1 x.length) 1 1).length = y.length := by
    rw [unfoldT_length _ _ one_pos (by rw [arange1_length]; omega),
      arange1_length, hxy, Nat.div_one]
  have hywin_len :
      (unfoldT (cumsum (y.map (fun a => a - meanQ y))) 1 1).length = y.length := by
    rw [unfoldT_length _ _ one_pos (by rw [hs_len]; omega), hs_len, Nat.div_one]
  simp only [DFA_Method_msq]
  rw [if_neg (by omega : ¬ (1 : ℕ) = 0), if_neg (by rw [hs_len]; omega),
    if_neg (by omega)]
  rw [hs_len, Nat.div_one]
  have hrows : ∀ p ∈ (List.range y.length).map
      (fitRow (unfoldT (arange1 x.length) 1 1)
        (unfoldT (cumsum (y.map (fun a => a - meanQ y))) 1 1)), p = .nan := by
    intro p hp
    obtain ⟨i, hi, rfl⟩ := List.mem_map.mp hp
    have hiN : i < y.length := List.mem_range.mp hi
    have hxs : (unfoldT (arange1 x.length) 1 1).getD i [] = idxWindow 1 i := by
      rw [unfoldT_getD _ _ _ (by rw [hnum_len]; omega)]
      exact idxWindow_eq_slice x.length 1 i (by omega)
    have hyw : (unfoldT (cumsum (y.map (fun a => a - meanQ y))) 1 1).getD i []
        = windowSlice (specIntegrated y) 1 i := by
      rw [unfoldT_getD _ _ _ (by rw [hywin_len]; omega)]
      rfl
    have hywlen : (windowSlice (specIntegrated y) 1 i).length = 1 :=
      windowSlice_length _ _ _ (by rw [specIntegrated_length]; omega)
    unfold fitRow
    rw [if_pos (by rw [hnum_len]; omega), hxs, hyw]
    unfold linregress
    rw [if_neg (by rw [idxWindow_length, hywlen]; omega),
      if_neg (by rintro ⟨-, hcon⟩; rw [idxWindow_length] at hcon; omega),
      if_pos (by rw [idxWindow_length])]
  rw [pySeq_all_nan _ ?_ hrows]
  · intro hcon
    have := congrArg List.length hcon
    simp only [List.length_map, List.length_range, List.length_nil] at this
    omega

theorem DFA_Method_one (x y : List ℚ) (hxy : x.length = y.length)
    (hy : 1 ≤ y.length) : DFA_Method x y 1 = .nan := by
  unfold DFA_Method
  rw [DFA_Method_msq_one x y hxy hy]

theorem DFA_Method_msq_zero (x y : List ℚ) :
    DFA_Method_msq x y 0 = .exn .zeroDivisionError := rfl

/-! ### The fluctuation does not depend on the time-axis values -/

theorem DFA_Method_msq_length_x (x₁ x₂ y : List ℚ) (w : ℕ)
    (h : x₁.length = x₂.length) :
    DFA_Method_msq x₁ y w = DFA_Method_msq x₂ y w := by
  simp only [DFA_Method_msq, h]

/-! ### Offset invariance and multiplicative scaling -/

theorem sum_map_add_const (l : List ℚ) (c : ℚ) :
    (l.map (fun a => a + c)).sum = l.sum + l.length * c := by
  induction l with
  | nil => simp
  | cons a t ih =>
    simp only [List.map_cons, List.sum_cons, List.length_cons, ih]
    push_cast
    ring

theorem sum_map_smul (l : List ℚ) (k : ℚ) :
    (l.map (fun a => k * a)).sum = k * l.sum := by
  induction l with
  | nil => simp
  | cons a t ih => simp only [List.map_cons, List.sum_cons, ih]; ring

theorem meanQ_map_add (l : List ℚ) (c : ℚ) (h : l.length ≠ 0) :
    meanQ (l.map (fun a => a + c)) = meanQ l + c := by
  unfold meanQ
  rw [List.length_map, sum_map_add_const]
  have h0 : (l.length : ℚ) ≠ 0 := by exact_mod_cast h
  field_simp
  ring

theorem meanQ_map_smul (l : List ℚ) (k : ℚ) :
    meanQ (l.map (fun a => k * a)) = k * meanQ l := by
  unfold meanQ
  rw [List.length_map, sum_map_smul, mul_div_assoc]

theorem centered_map_add (y : List ℚ) (c : ℚ) :
    (y.map (fun a => a + c)).map
        (fun a => a - meanQ (y.map (fun a => a + c)))
      = y.map (fun a => a - meanQ y) := by
  rcases eq_or_ne y [] with rfl | hne
  · simp
  · have h0 : y.length ≠ 0 := by
      have := List.length_pos.mpr hne
      omega
    rw [meanQ_map_add y c h0, List.map_map]
    apply List.map_congr_left
    intro a _
    simp only [Function.comp]
    ring

theorem centered_map_smul (y : List ℚ) (k : ℚ) :
    (y.map (fun a => k * a)).map
        (fun a => a - meanQ (y.map (fun a => k * a)))
      = (y.map (fun a => a - meanQ y)).map (fun a => k * a) := by
  rw [meanQ_map_smul, List.map_map, List.map_map]
  apply List.map_congr_left
  intro a _
  simp only [Function.comp]
  ring

theorem cumsumFrom_map_smul (k acc : ℚ) (l : List ℚ) :
    cumsumFrom (k * acc) (l.map (fun a => k * a))
      = (cumsumFrom acc l).map (fun a => k * a) := by
  induction l generalizing acc with
  | nil => rfl
  | cons a t ih =>
    simp only [List.map_cons, cumsumFrom]
    rw [← mul_add, ih]

theorem cumsum_map_smul (k : ℚ) (l : List ℚ) :
    cumsum (l.map (fun a => k * a)) = (cumsum l).map (fun a => k * a) := by
  unfold cumsum
  rw [show (0 : ℚ) = k * 0 by ring, cumsumFrom_map_smul]
  rw [show k * (0 : ℚ) = 0 by ring]

theorem specIntegrated_smul (y : List ℚ) (k : ℚ) :
    specIntegrated (y.map (fun a => k * a))
      = (specIntegrated y).map (fun a => k * a) := by
  unfold specIntegrated
  rw [centered_map_smul, cumsum_map_smul]

theorem windowSlice_map (f : ℚ → ℚ) (s : List ℚ) (w i : ℕ) :
    windowSlice (s.map f) w i = (windowSlice s w i).map f := by
  unfold windowSlice
  rw [← List.map_drop, ← List.map_take]

theorem zip_sum_fst (g : ℚ → ℚ) (xs ys : List ℚ) (h : xs.length = ys.length) :
    ((xs.zip ys).map (fun p => g p.1)).sum = (xs.map g).sum := by
  induction xs generalizing ys with
  | nil =>
    cases ys with
    | nil => simp
    | cons c u => simp at h
  | cons a t ih =>
    cases ys with
    | nil => simp at h
    | cons c u =>
      simp only [List.zip_cons_cons, List.map_cons, List.sum_cons]
      rw [ih u (by simpa using h)]

theorem Sxy_map_smul (xs ys : List ℚ) (k : ℚ) :
    Sxy xs (ys.map (fun a => k * a)) = k * Sxy xs ys := by
  unfold Sxy
  rw [meanQ_map_smul, List.zip_map_right, List.map_map, ← sum_map_smul,
    List.map_map]
  apply congrArg List.sum
  apply List.map_congr_left
  intro p _
  simp only [Function.comp, Prod.map, id_eq]
  ring

theorem olsSlope_map_smul (xs ys : List ℚ) (k : ℚ) :
    olsSlope xs (ys.map (fun a => k * a)) = k * olsSlope xs ys := by
  unfold olsSlope
  rw [Sxy_map_smul, mul_div_assoc]

theorem olsIntercept_map_smul (xs ys : List ℚ) (k : ℚ) :
    olsIntercept xs (ys.map (fun a => k * a)) = k * olsIntercept xs ys := by
  unfold olsIntercept
  rw [olsSlope_map_smul, meanQ_map_smul]
  ring

theorem specResiduals_map_smul (xs ys : List ℚ) (k : ℚ) :
    specResiduals xs (ys.map (fun a => k * a))
      = (specResiduals xs ys).map (fun a => k * a) := by
  unfold specResiduals
  rw [olsSlope_map_smul, olsIntercept_map_smul, List.zip_map_right,
    List.map_map, List.map_map]
  apply List.map_congr_left
  intro p _
  simp only [Function.comp, Prod.map, id_eq]
  ring

theorem pooledSq_smul (y : List ℚ) (w : ℕ) (k : ℚ) :
    pooledSqResiduals (y.map (fun a => k * a)) w
      = (pooledSqResiduals y w).map (fun r => k ^ 2 * r) := by
  unfold pooledSqResiduals
  rw [List.length_map, List.map_flatten, List.map_map]
  congr 1
  apply List.map_congr_left
  intro i _
  simp only [Function.comp]
  rw [specIntegrated_smul, windowSlice_map, specResiduals_map_smul,
    List.map_map, List.map_map]
  apply List.map_congr_left
  intro r _
  simp only [Function.comp]
  ring

theorem meanQ_map_sq_smul (l : List ℚ) (k : ℚ) :
    meanQ (l.map (fun r => k ^ 2 * r)) = k ^ 2 * meanQ l := by
  unfold meanQ
  rw [List.length_map, sum_map_smul, mul_div_assoc]

theorem specMSQ_smul (y : List ℚ) (w : ℕ) (k : ℚ) :
    specMSQ (y.map (fun a => k * a)) w = k ^ 2 * specMSQ y w := by
  unfold specMSQ
  rw [pooledSq_smul, meanQ_map_sq_smul]

theorem DFA_Method_msq_offset (x y : List ℚ) (c : ℚ) (w : ℕ) :
    DFA_Method_msq x (y.map (fun a => a + c)) w = DFA_Method_msq x y w := by
  simp only [DFA_Method_msq]
  rw [centered_map_add]

/-! ### Residual invariance under a shift linear in the regressor -/

theorem sum_map_mul_fun (k : ℚ) (f : ℚ → ℚ) (l : List ℚ) :
    (l.map (fun a => k * f a)).sum = k * (l.map f).sum := by
  induction l with
  | nil => simp
  | cons a t ih => simp only [List.map_cons, List.sum_cons, ih]; ring

theorem zip_zipWith (f : ℚ → ℚ → ℚ) (xs ys : List ℚ) :
    xs.zip (List.zipWith f xs ys) = (xs.zip ys).map (fun p => (p.1, f p.1 p.2)) := by
  induction xs generalizing ys with
  | nil => simp
  | cons a t ih =>
    cases ys with
    | nil => simp
    | cons c u =>
      simp only [List.zipWith_cons_cons, List.zip_cons_cons, List.map_cons]
      rw [ih u]

theorem zipWith_shift_sum (d : ℚ) (xs ys : List ℚ) (h : xs.length = ys.length) :
    (List.zipWith (fun t v => v + d * t) xs ys).sum = ys.sum + d * xs.sum := by
  induction xs generalizing ys with
  | nil =>
    cases ys with
    | nil => simp
    | cons c u => simp at h
  | cons a t ih =>
    cases ys with
    | nil => simp at h
    | cons c u =>
      simp only [List.zipWith_cons_cons, List.sum_cons]
      rw [ih u (by simpa using h)]
      ring

theorem meanQ_zipWith_shift (d : ℚ) (xs ys : List ℚ) (h : xs.length = ys.length) :
    meanQ (List.zipWith (fun t v => v + d * t) xs ys)
      = meanQ ys + d * meanQ xs := by
  unfold meanQ
  rw [List.length_zipWith, h, min_self, zipWith_shift_sum d xs ys h, ← h]
  rw [add_div, mul_div_assoc]

theorem Sxy_zipWith_shift (d : ℚ) (xs ys : List ℚ) (h : xs.length = ys.length) :
    Sxy xs (List.zipWith (fun t v => v + d * t) xs ys)
      = Sxy xs ys + d * Sxx xs := by
  unfold Sxy
  rw [meanQ_zipWith_shift d xs ys h, zip_zipWith, List.map_map]
  have hcongr : ∀ p ∈ xs.zip ys,
      ((fun p : ℚ × ℚ => (p.1 - meanQ xs) * (p.2 - (meanQ ys + d * meanQ xs))) ∘
        (fun p : ℚ × ℚ => (p.1, p.2 + d * p.1))) p
        = (p.1 - meanQ xs) * (p.2 - meanQ ys) + d * (p.1 - meanQ xs) ^ 2 := by
    intro p _
    simp only [Function.comp]
    ring
  rw [List.map_congr_left hcongr, List.sum_map_add]
  congr 1
  rw [zip_sum_fst (fun a => d * (a - meanQ xs) ^ 2) xs ys h, sum_map_mul_fun]
  rfl

theorem olsSlope_zipWith_shift (d : ℚ) (xs ys : List ℚ)
    (h : xs.length = ys.length) (hS : Sxx xs ≠ 0) :
    olsSlope xs (List.zipWith (fun t v => v + d * t) xs ys)
      = olsSlope xs ys + d := by
  unfold olsSlope
  rw [Sxy_zipWith_shift d xs ys h, add_div, mul_div_assoc, div_self hS, mul_one]

theorem olsIntercept_zipWith_shift (d : ℚ) (xs ys : List ℚ)
    (h : xs.length = ys.length) (hS : Sxx xs ≠ 0) :
    olsIntercept xs (List.zipWith (fun t v => v + d * t) xs ys)
      = olsIntercept xs ys := by
  unfold olsIntercept
  rw [olsSlope_zipWith_shift d xs ys h hS, meanQ_zipWith_shift d xs ys h]
  ring

theorem specResiduals_zipWith_shift (d : ℚ) (xs ys : List ℚ)
    (h : xs.length = ys.length) (hS : Sxx xs ≠ 0) :
    specResiduals xs (List.zipWith (fun t v => v + d * t) xs ys)
      = specResiduals xs ys := by
  unfold specResiduals
  rw [olsSlope_zipWith_shift d xs ys h hS, olsIntercept_zipWith_shift d xs ys h hS,
    zip_zipWith, List.map_map]
  apply List.map_congr_left
  intro p _
  simp only [Function.comp]
  ring

theorem Sxx_idxWindow_pos (w i : ℕ) (hw : 2 ≤ w) : 0 < Sxx (idxWindow w i) := by
  have h0 : 0 < (idxWindow w i).length := by rw [idxWindow_length]; omega
  have h1 : 1 < (idxWindow w i).length := by rw [idxWindow_length]; omega
  apply Sxx_pos h0 h1
  rw [idxWindow_getElem _ _ _ h0, idxWindow_getElem _ _ _ h1]
  intro hcon
  have hc : ((i * w + 0 : ℕ) : ℚ) = ((i * w + 1 : ℕ) : ℚ) := by linarith
  have := Nat.cast_inj.mp hc
  omega

/-! ### The trailing remainder does not contribute -/

theorem take_M_length (y : List ℚ) (w : ℕ) :
    (y.take (w * (y.length / w))).length = w * (y.length / w) := by
  rw [List.length_take]
  have h : w * (y.length / w) ≤ y.length := by
    rw [Nat.mul_comm]
    exact Nat.div_mul_le_self y.length w
  omega

theorem windowSlice_take_shift (y : List ℚ) (w i : ℕ) (hw : 0 < w)
    (hi : i < y.length / w) :
    windowSlice (specIntegrated (y.take (w * (y.length / w)))) w i
      = List.zipWith (fun t v => v + (meanQ y - meanQ (y.take (w * (y.length / w)))) * t)
          (idxWindow w i) (windowSlice (specIntegrated y) w i) := by
  have hM : w * (y.length / w) ≤ y.length := by
    rw [Nat.mul_comm]
    exact Nat.div_mul_le_self y.length w
  have hiM : i * w + w ≤ w * (y.length / w) := by
    have h2 : (i + 1) * w ≤ (y.length / w) * w := Nat.mul_le_mul_right w hi
    calc i * w + w = (i + 1) * w := by ring
    _ ≤ (y.length / w) * w := h2
    _ = w * (y.length / w) := by ring
  have hiN : i * w + w ≤ y.length := by omega
  apply List.ext_getElem
  · rw [windowSlice_length _ _ _ (by rw [specIntegrated_length, take_M_length]; omega),
      List.length_zipWith, idxWindow_length,
      windowSlice_length _ _ _ (by rw [specIntegrated_length]; omega), min_self]
  · intro j h1 h2
    have hjw : j < w := by
      rwa [windowSlice_length _ _ _
        (by rw [specIntegrated_length, take_M_length]; omega)] at h1
    have hsz : i * w + j < (specIntegrated (y.take (w * (y.length / w)))).length := by
      rw [specIntegrated_length, take_M_length]
      omega
    have hsy : i * w + j < (specIntegrated y).length := by
      rw [specIntegrated_length]
      omega
    rw [windowSlice_getElem _ _ _ _ h1 hsz, specIntegrated_getElem _ _ hsz,
      List.getElem_zipWith]
    rw [idxWindow_getElem _ _ _ (by rw [idxWindow_length]; omega),
      windowSlice_getElem _ _ _ _ (by
        rw [windowSlice_length _ _ _ (by rw [specIntegrated_length]; omega)]
        omega) hsy,
      specIntegrated_getElem _ _ hsy]
    rw [List.take_take]
    have hmin : min (i * w + j + 1) (w * (y.length / w)) = i * w + j + 1 := by omega
    rw [hmin]
    push_cast
    ring

theorem specMSQ_take (y : List ℚ) (w : ℕ) (hw : 2 ≤ w) (hwy : w ≤ y.length) :
    specMSQ (y.take (w * (y.length / w))) w = specMSQ y w := by
  unfold specMSQ pooledSqResiduals
  rw [take_M_length, Nat.mul_div_cancel_left _ (by omega : 0 < w)]
  congr 2
  apply List.map_congr_left
  intro i hi
  have hiN : i < y.length / w := List.mem_range.mp hi
  rw [windowSlice_take_shift y w i (by omega) hiN]
  rw [specResiduals_zipWith_shift _ _ _
    (by rw [idxWindow_length,
      windowSlice_length _ _ _ (by rw [specIntegrated_length]; exact window_bound hiN)])
    (Sxx_idxWindow_pos w i hw).ne']

/-! ### Structure of the window-size sweep -/

theorem Windows_sizes_eq (N initial steps : ℕ) :
    Windows_sizes N initial steps
      = sortedUnique ((List.range steps).map (fun i : ℕ => roundEven
          ((10 : ℝ) ^ (Real.logb 10 initial
            + (i : ℝ) * (Real.logb 10 ((N : ℝ) / 4) - Real.logb 10 initial)
              / ((steps : ℝ) - 1))))) := by
  unfold Windows_sizes logspaceT linspaceT
  rw [List.map_map, List.map_map]
  rfl

theorem sortedUnique_sorted (l : List ℤ) :
    List.Sorted (· < ·) (sortedUnique l) :=
  Finset.sort_sorted_lt _

theorem sortedUnique_length_le (l : List ℤ) :
    (sortedUnique l).length ≤ l.length := by
  unfold sortedUnique
  rw [Finset.length_sort]
  exact List.toFinset_card_le l

theorem Windows_sizes_sorted (N initial steps : ℕ) :
    List.Sorted (· < ·) (Windows_sizes N initial steps) :=
  sortedUnique_sorted _

theorem Windows_sizes_length_le (N initial steps : ℕ) :
    (Windows_sizes N initial steps).length ≤ steps := by
  unfold Windows_sizes
  calc (sortedUnique ((logspaceT (Real.logb 10 initial)
      (Real.logb 10 ((N : ℝ) / 4)) steps).map roundEven)).length
      ≤ ((logspaceT (Real.logb 10 initial)
          (Real.logb 10 ((N : ℝ) / 4)) steps).map roundEven).length :=
        sortedUnique_length_le _
  _ = steps := by
      unfold logspaceT linspaceT
      rw [List.length_map, List.length_map, List.length_map, List.length_range]

theorem pySeq_fst {l : List ℤ} {g : ℤ → Py ℝ} {pts : List (ℤ × ℝ)}
    (h : pySeq (l.map (fun s =>
        match g s with
        | .ok F => .ok (s, F)
        | .nan => .nan
        | .exn e => .exn e)) = .ok pts) :
    pts.map Prod.fst = l := by
  induction l generalizing pts with
  | nil =>
    simp only [List.map_nil] at h
    cases h
    rfl
  | cons a t ih =>
    simp only [List.map_cons] at h
    cases hg : g a with
    | ok F =>
      rw [hg] at h
      rw [pySeq_cons_ok] at h
      cases ht : pySeq (t.map (fun s =>
          match g s with
          | .ok F => .ok (s, F)
          | .nan => .nan
          | .exn e => .exn e)) with
      | ok l' =>
        rw [ht] at h
        cases h
        simp only [List.map_cons]
        rw [ih ht]
      | nan => rw [ht] at h; cases h
      | exn e => rw [ht] at h; cases h
    | nan =>
      rw [hg] at h
      rw [pySeq_cons_nan] at h
      cases ht : pySeq (t.map (fun s =>
          match g s with
          | .ok F => .ok (s, F)
          | .nan => .nan
          | .exn e => .exn e)) with
      | ok l' => rw [ht] at h; cases h
      | nan => rw [ht] at h; cases h
      | exn e => rw [ht] at h; cases h
    | exn e =>
      rw [hg] at h
      rw [pySeq_cons_exn] at h
      cases h

/-! ### Constant series give zero fluctuation -/

theorem cumsumFrom_replicate_zero (acc : ℚ) (n : ℕ) :
    cumsumFrom acc (List.replicate n 0) = List.replicate n acc := by
  induction n generalizing acc with
  | zero => rfl
  | succ m ih =>
    rw [List.replicate_succ, List.replicate_succ]
    unfold cumsumFrom
    rw [add_zero, ih]

theorem meanQ_replicate (n : ℕ) (c : ℚ) (h : n ≠ 0) :
    meanQ (List.replicate n c) = c := by
  unfold meanQ
  rw [List.sum_replicate, List.length_replicate, nsmul_eq_mul]
  have h0 : (n : ℚ) ≠ 0 := by exact_mod_cast h
  field_simp

theorem specIntegrated_replicate (n : ℕ) (c : ℚ) :
    specIntegrated (List.replicate n c) = List.replicate n 0 := by
  rcases Nat.eq_zero_or_pos n with rfl | hpos
  · rfl
  · unfold specIntegrated
    rw [meanQ_replicate n c (by omega), List.map_replicate, sub_self]
    unfold cumsum
    rw [cumsumFrom_replicate_zero]

theorem specResiduals_replicate_zero (xs : List ℚ) (m : ℕ) :
    ∀ r ∈ specResiduals xs (List.replicate m 0), r = 0 := by
  have hmean : meanQ (List.replicate m 0) = 0 := by
    unfold meanQ
    rw [List.sum_replicate]
    simp
  have hSxy : Sxy xs (List.replicate m 0) = 0 := by
    unfold Sxy
    apply List.sum_eq_zero
    intro a ha
    obtain ⟨p, hp, rfl⟩ := List.mem_map.mp ha
    obtain ⟨u, v⟩ := p
    have h2 : v = 0 := List.eq_of_mem_replicate (List.of_mem_zip hp).2
    rw [hmean, h2]
    ring
  intro r hr
  unfold specResiduals at hr
  obtain ⟨p, hp, rfl⟩ := List.mem_map.mp hr
  obtain ⟨u, v⟩ := p
  have h2 : v = 0 := List.eq_of_mem_replicate (List.of_mem_zip hp).2
  unfold olsSlope olsIntercept
  rw [hSxy, hmean, h2, zero_div]
  unfold olsSlope
  rw [hSxy, zero_div]
  ring

theorem specMSQ_replicate (n w : ℕ) (c : ℚ) :
    specMSQ (List.replicate n c) w = 0 := by
  have hsum : (pooledSqResiduals (List.replicate n c) w).sum = 0 := by
    apply List.sum_eq_zero
    intro r hr
    unfold pooledSqResiduals at hr
    rw [List.mem_flatten] at hr
    obtain ⟨L, hL, hrL⟩ := hr
    obtain ⟨i, hi, rfl⟩ := List.mem_map.mp hL
    obtain ⟨q, hq, rfl⟩ := List.mem_map.mp hrL
    rw [specIntegrated_replicate] at hq
    have hws : windowSlice (List.replicate n (0 : ℚ)) w i
        = List.replicate (min w (n - i * w)) 0 := by
      unfold windowSlice
      rw [List.drop_replicate, List.take_replicate]
    rw [hws] at hq
    rw [specResiduals_replicate_zero _ _ q hq]
    ring
  unfold specMSQ meanQ
  rw [hsum, zero_div]

theorem DFA_const_msq (x : List ℚ) (n w : ℕ) (c : ℚ) (hw : 2 ≤ w)
    (hwn : w ≤ n) (hx : x.length = n) :
    DFA_Method_msq x (List.replicate n c) w = .ok 0 := by
  rw [DFA_Method_msq_ok _ _ _ hw (by rw [List.length_replicate]; exact hwn)
    (by rw [List.length_replicate]; exact hx)]
  rw [specMSQ_replicate]

/-! ### Concrete evaluations of the sweep -/

theorem roundEven_intCast (m : ℤ) : roundEven ((m : ℤ) : ℝ) = m := by
  unfold roundEven
  rw [Int.fract_intCast, if_pos (by norm_num), Int.floor_intCast]

theorem linspaceT_one (a b : ℝ) : linspaceT a b 1 = [a] := by
  unfold linspaceT
  rw [show List.range 1 = [0] from rfl]
  simp

theorem linspaceT_two (a b : ℝ) : linspaceT a b 2 = [a, b] := by
  unfold linspaceT
  rw [show List.range 2 = [0, 1] from rfl]
  simp only [List.map_cons, List.map_nil]
  norm_num

theorem sortedUnique_singleton (a : ℤ) : sortedUnique [a] = [a] := by
  unfold sortedUnique
  rw [List.toFinset_cons, List.toFinset_nil, insert_emptyc_eq,
    Finset.sort_singleton]

theorem sortedUnique_pair (a b : ℤ) (hab : a < b) :
    sortedUnique [b, a] = [a, b] := by
  unfold sortedUnique
  have hset : [b, a].toFinset = [a, b].toFinset := by
    ext c
    simp only [List.toFinset_cons, List.toFinset_nil, Finset.mem_insert]
    tauto
  rw [hset]
  rw [List.toFinset_sort (· ≤ ·) (by simp; omega)]
  exact List.sorted_cons.mpr ⟨by intro c hc; simp at hc; omega, by simp⟩

/-- The concrete time axis 1, …, 16 used for the sweep counterexamples. -/
def xConst16 : List ℚ := arange1 16

/-- A constant amplitude series of length 16 (value 2). -/
def yConst16 : List ℚ := List.replicate 16 (2 : ℚ)

/-- A constant amplitude series of length 16 (value 5). -/
def yFive16 : List ℚ := List.replicate 16 (5 : ℚ)

theorem xConst16_length : xConst16.length = 16 := by
  unfold xConst16
  rw [arange1_length]

theorem Windows_sizes_16_4_1 : Windows_sizes 16 4 1 = [(4 : ℤ)] := by
  unfold Windows_sizes logspaceT
  rw [linspaceT_one]
  simp only [List.map_cons, List.map_nil]
  rw [Real.rpow_logb (by norm_num) (by norm_num) (by norm_num)]
  rw [show ((4 : ℕ) : ℝ) = ((4 : ℤ) : ℝ) by norm_num, roundEven_intCast]
  exact sortedUnique_singleton 4

theorem Windows_sizes_16_8_2 : Windows_sizes 16 8 2 = [(4 : ℤ), (8 : ℤ)] := by
  unfold Windows_sizes logspaceT
  rw [linspaceT_two]
  simp only [List.map_cons, List.map_nil]
  rw [Real.rpow_logb (by norm_num) (by norm_num) (by norm_num)]
  rw [Real.rpow_logb (by norm_num) (by norm_num) (by norm_num)]
  rw [show ((8 : ℕ) : ℝ) = ((8 : ℤ) : ℝ) by norm_num, roundEven_intCast]
  rw [show ((16 : ℕ) : ℝ) / 4 = ((4 : ℤ) : ℝ) by norm_num, roundEven_intCast]
  exact sortedUnique_pair 4 8 (by omega)

theorem msq_const16_4 : DFA_Method_msq xConst16 yConst16 4 = .ok 0 :=
  DFA_const_msq xConst16 16 4 2 (by omega) (by omega) xConst16_length

theorem msq_const16_8 : DFA_Method_msq xConst16 yConst16 8 = .ok 0 :=
  DFA_const_msq xConst16 16 8 2 (by omega) (by omega) xConst16_length

theorem msq_five16_4 : DFA_Method_msq xConst16 yFive16 4 = .ok 0 :=
  DFA_const_msq xConst16 16 4 5 (by omega) (by omega) xConst16_length

/-- The series whose amplitudes are the integers 1, …, 12. -/
def y12 : List ℚ := [1, 2, 3, 4, 5, 6, 7, 8, 9, 10, 11, 12]

theorem specMSQ_y12 : specMSQ y12 4 = 1 / 4 := by
  norm_num [y12, specMSQ, pooledSqResiduals, specResiduals, olsSlope,
    olsIntercept, Sxy, Sxx, meanQ, specIntegrated, cumsum, cumsumFrom,
    windowSlice, idxWindow, dotL, List.range_succ]

theorem specF_take (y : List ℚ) (w : ℕ) (hw : 2 ≤ w) (hwy : w ≤ y.length) :
    specF (y.take (w * (y.length / w))) w = specF y w := by
  unfold specF
  rw [specMSQ_take y w hw hwy]

theorem fpoints_const16 : fluctuationPoints xConst16 yConst16 8 2
    = .ok [((4 : ℤ), (0 : ℝ)), ((8 : ℤ), (0 : ℝ))] := by
  unfold fluctuationPoints
  rw [show xConst16.length = 16 by decide, Windows_sizes_16_8_2]
  simp only [List.map_cons, List.map_nil]
  rw [show ((4 : ℤ).toNat) = 4 from rfl, show ((8 : ℤ).toNat) = 8 from rfl]
  unfold DFA_Method
  rw [msq_const16_4, msq_const16_8]
  simp [pySeq_cons_ok, pySeq]

theorem fpoints_five16 : fluctuationPoints xConst16 yFive16 4 1
    = .ok [((4 : ℤ), (0 : ℝ))] := by
  unfold fluctuationPoints
  rw [show xConst16.length = 16 by decide, Windows_sizes_16_4_1]
  simp only [List.map_cons, List.map_nil]
  rw [show ((4 : ℤ).toNat) = 4 from rfl]
  unfold DFA_Method
  rw [msq_five16_4]
  simp [pySeq_cons_ok, pySeq]

theorem sweepLogs_five16 : sweepLogs xConst16 yFive16 4 1
    = .ok [FloatV.negInf] := by
  unfold sweepLogs
  rw [fpoints_five16]
  unfold logStep log10T
  norm_num

/-! ## The claims -/

/-- C1: for every amplitude series `y` of length N ≥ 2 (with a matching time
axis) and every window size `2 ≤ w ≤ N`, `DFA_Method` returns
`F = sqrt(mean(all squared OLS residuals))` pooled across all `⌊N/w⌋`
complete windows of the integrated series (cumulative sum of amplitude minus
its mean) — a single RMS over the pooled residual set, not an average of
per-window RMS values; and each window's residuals are those of the
least-squares-optimal line for that window. -/
theorem C1_pooled_rms (x y : List ℚ) (w : ℕ) (hN : 2 ≤ y.length)
    (hw : 2 ≤ w) (hwN : w ≤ y.length) (hxy : x.length = y.length) :
    DFA_Method x y w = .ok (Real.sqrt (meanQ (pooledSqResiduals y w)))
    ∧ ∀ i < y.length / w, ∀ m' b' : ℚ,
        ((specResiduals (idxWindow w i) (windowSlice (specIntegrated y) w i)).map
            (fun r => r ^ 2)).sum
          ≤ (((idxWindow w i).zip (windowSlice (specIntegrated y) w i)).map
              (fun p => (p.2 - (m' * p.1 + b')) ^ 2)).sum := by
  constructor
  · exact DFA_Method_ok x y w hw hwN hxy
  · intro i hi m' b'
    apply ols_min
    · rw [idxWindow_length, windowSlice_length _ _ _
        (by rw [specIntegrated_length]; exact window_bound hi)]
    · rw [idxWindow_length]; omega
    · exact (Sxx_idxWindow_pos w i hw).ne'

theorem C1_pooled_rms_witness :
    DFA_Method (arange1 4) (arange1 4) 2
      = .ok (Real.sqrt (meanQ (pooledSqResiduals (arange1 4) 2))) :=
  (C1_pooled_rms (arange1 4) (arange1 4) 2 (by rw [arange1_length]; omega)
    (by omega) (by rw [arange1_length]; omega) rfl).1

/-- C2 counterexample: at series length 4 and windowSize 1 `DFA_Method` does
not fail with any error: every single-point window regression produces a NaN
slope, so the method returns NaN — refuting the claim that windowSize < 2
fails with `InvalidWindowSizeError`. -/
theorem C2_cex :
    DFA_Method (arange1 4) (arange1 4) 1 = Py.nan
      ∧ (DFA_Method (arange1 4) (arange1 4) 1).isExn = false := by
  have h := DFA_Method_one (arange1 4) (arange1 4) rfl (by rw [arange1_length]; omega)
  exact ⟨h, by rw [h]; rfl⟩

/-- C2 amended: `DFA_Method` raises an error (the torch `RuntimeError` from
`unfold`, the failure the spec names `InsufficientDataError`) whenever
windowSize exceeds the series length; but for windowSize = 1 it does not
fail: it returns NaN (degenerate single-sample regressions); windowSize = 0
raises `ZeroDivisionError`. -/
theorem C2_amended (x y : List ℚ) (w : ℕ) (hxy : x.length = y.length) :
    (y.length < w → DFA_Method x y w = .exn .runtimeError)
    ∧ (w = 1 → 1 ≤ y.length → DFA_Method x y w = .nan)
    ∧ (w = 0 → DFA_Method x y w = .exn .zeroDivisionError) := by
  refine ⟨fun h => DFA_Method_overlong x y w h, fun h1 h2 => ?_, fun h0 => ?_⟩
  · subst h1
    exact DFA_Method_one x y hxy h2
  · subst h0
    rfl

theorem C2_amended_witness :
    ((arange1 3).length < 5 → DFA_Method (arange1 3) (arange1 3) 5
        = .exn .runtimeError)
    ∧ ((5 : ℕ) = 1 → 1 ≤ (arange1 3).length → DFA_Method (arange1 3) (arange1 3) 5
        = .nan)
    ∧ ((5 : ℕ) = 0 → DFA_Method (arange1 3) (arange1 3) 5
        = .exn .zeroDivisionError) :=
  C2_amended (arange1 3) (arange1 3) 5 rfl

/-- C3 counterexample: with series length 16 (maxWindowSize = 16/4 = 4) and
initialWindowSize 8 > 4, the sweep does not fail with any error: it computes
fluctuation values for the realized sizes [4, 8] and returns them — refuting
the claim that the sweep fails with `InvalidRangeError` before computing any
fluctuation value. -/
theorem C3_cex :
    (16 : ℝ) / 4 < 8
      ∧ (fluctuationPoints xConst16 yConst16 8 2).isOk = true
      ∧ (fluctuationPoints xConst16 yConst16 8 2).isExn = false := by
  refine ⟨by norm_num, ?_, ?_⟩ <;> rw [fpoints_const16] <;> rfl

/-- C3 amended: `DFA_F_Plot` computes `maxWindowSize = N/4` as the endpoint of
the logarithmic spacing, but performs no range validation at all: when
`initialWindowSize > maxWindowSize` it proceeds (the rounded sizes are sorted
ascending by `torch.unique`) and can complete successfully. -/
theorem C3_amended :
    (∀ N initial steps : ℕ,
      Windows_sizes N initial steps
        = sortedUnique ((logspaceT (Real.logb 10 initial)
            (Real.logb 10 ((N : ℝ) / 4)) steps).map roundEven))
    ∧ (16 : ℝ) / 4 < 8
    ∧ fluctuationPoints xConst16 yConst16 8 2
        = .ok [((4 : ℤ), (0 : ℝ)), ((8 : ℤ), (0 : ℝ))] :=
  ⟨fun _ _ _ => rfl, by norm_num, fpoints_const16⟩

/-- C4: for every series and window size with `⌊N/w⌋ ≥ 1`, `DFA_Method` uses
exactly `⌊N/w⌋` contiguous non-overlapping complete windows, and the trailing
`N mod w` elements never contribute: the result is unchanged when the series
is truncated to its first `w·⌊N/w⌋` elements. -/
theorem C4_remainder_discarded (x y : List ℚ) (w : ℕ)
    (hnw : 1 ≤ y.length / w) (hxy : x.length = y.length) :
    DFA_Method x y w
        = DFA_Method (x.take (w * (y.length / w))) (y.take (w * (y.length / w))) w
      ∧ (unfoldT (specIntegrated y) w w).length = y.length / w := by
  have hw0 : 0 < w := by
    rcases Nat.eq_zero_or_pos w with rfl | h
    · rw [Nat.div_zero] at hnw
      omega
    · exact h
  have hwy : w ≤ y.length := (Nat.one_le_div_iff hw0).mp hnw
  constructor
  · rcases Nat.lt_or_ge w 2 with h1 | h2
    · have hw1 : w = 1 := by omega
      subst hw1
      rw [Nat.div_one, one_mul, List.take_length, ← hxy, List.take_length]
    · have hMy := take_M_length y w
      have hMx : (x.take (w * (y.length / w))).length
          = (y.take (w * (y.length / w))).length := by
        rw [List.length_take, List.length_take, hxy]
      rw [DFA_Method_ok x y w h2 hwy hxy,
        DFA_Method_ok _ _ w h2
          (by rw [hMy]; exact Nat.le_mul_of_pos_right w hnw) hMx,
        specF_take y w h2 hwy]
  · rw [unfoldT_length _ _ hw0 (by rw [specIntegrated_length]; exact hwy),
      specIntegrated_length]

theorem C4_remainder_discarded_witness :
    DFA_Method (arange1 13) (arange1 13) 4
        = DFA_Method ((arange1 13).take (4 * ((arange1 13).length / 4)))
            (((arange1 13)).take (4 * ((arange1 13).length / 4))) 4
      ∧ (unfoldT (specIntegrated (arange1 13)) 4 4).length
          = (arange1 13).length / 4 :=
  C4_remainder_discarded (arange1 13) (arange1 13) 4
    (by rw [arange1_length]; omega) rfl

/-- C5: for every series and every stepCount ≥ 2, the realized window sizes
are exactly the rounded logarithmically spaced values
`round(10^(log10 w₀ + i·(log10(N/4) − log10 w₀)/(steps−1)))` with duplicates
removed in ascending order; the realized FluctuationPoint sequence has
strictly increasing window sizes and length ≤ stepCount. -/
theorem C5_sweep_sizes (x y : List ℚ) (w0 steps : ℕ) (hsteps : 2 ≤ steps)
    (hw0 : 1 ≤ w0) :
    Windows_sizes x.length w0 steps
        = sortedUnique ((List.range steps).map (fun i : ℕ => roundEven
            ((10 : ℝ) ^ (Real.logb 10 w0
              + (i : ℝ) * (Real.logb 10 ((x.length : ℝ) / 4) - Real.logb 10 w0)
                / ((steps : ℝ) - 1)))))
    ∧ List.Sorted (· < ·) (Windows_sizes x.length w0 steps)
    ∧ (Windows_sizes x.length w0 steps).length ≤ steps
    ∧ ∀ pts, fluctuationPoints x y w0 steps = .ok pts →
        pts.map Prod.fst = Windows_sizes x.length w0 steps
        ∧ List.Sorted (· < ·) (pts.map Prod.fst)
        ∧ pts.length ≤ steps := by
  refine ⟨Windows_sizes_eq _ _ _, Windows_sizes_sorted _ _ _,
    Windows_sizes_length_le _ _ _, ?_⟩
  intro pts hpts
  have hfst : pts.map Prod.fst = Windows_sizes x.length w0 steps := by
    unfold fluctuationPoints at hpts
    exact pySeq_fst hpts
  refine ⟨hfst, by rw [hfst]; exact Windows_sizes_sorted _ _ _, ?_⟩
  have hl : pts.length = (pts.map Prod.fst).length := (List.length_map _ _).symm
  rw [hl, hfst]
  exact Windows_sizes_length_le _ _ _

theorem C5_sweep_sizes_witness :
    Windows_sizes xConst16.length 10 45
        = sortedUnique ((List.range 45).map (fun i : ℕ => roundEven
            ((10 : ℝ) ^ (Real.logb 10 10
              + (i : ℝ) * (Real.logb 10 ((xConst16.length : ℝ) / 4)
                  - Real.logb 10 10) / ((45 : ℝ) - 1)))))
    ∧ List.Sorted (· < ·) (Windows_sizes xConst16.length 10 45)
    ∧ (Windows_sizes xConst16.length 10 45).length ≤ 45
    ∧ ∀ pts, fluctuationPoints xConst16 yConst16 10 45 = .ok pts →
        pts.map Prod.fst = Windows_sizes xConst16.length 10 45
        ∧ List.Sorted (· < ·) (pts.map Prod.fst)
        ∧ pts.length ≤ 45 :=
  C5_sweep_sizes xConst16 yConst16 10 45 (by omega) (by omega)

/-- C6 counterexample: for a constant series of length 16 swept at the single
realized size 4, the computed F is exactly 0, and the sweep does not fail at
the log-transform step: `torch.log10` turns the zero into −∞ and the sweep
returns normally — refuting the claim that a zero F produces a
`NonFiniteResultError`. -/
theorem C6_cex :
    fluctuationPoints xConst16 yFive16 4 1 = .ok [((4 : ℤ), (0 : ℝ))]
      ∧ sweepLogs xConst16 yFive16 4 1 = .ok [FloatV.negInf] :=
  ⟨fpoints_five16, sweepLogs_five16⟩

/-- C6 amended: when a computed F value is exactly zero, the log-transform
step does not fail: it maps the zero to −∞ (`FloatV.negInf`) and the
non-finite value is propagated onward with no error raised. -/
theorem C6_amended (x y : List ℚ) (w0 steps : ℕ) (pts : List (ℤ × ℝ))
    (hpts : fluctuationPoints x y w0 steps = .ok pts)
    (hz : (0 : ℝ) ∈ pts.map Prod.snd) :
    sweepLogs x y w0 steps = .ok (logStep (pts.map Prod.snd))
      ∧ FloatV.negInf ∈ logStep (pts.map Prod.snd) := by
  constructor
  · unfold sweepLogs
    rw [hpts]
  · unfold logStep
    refine List.mem_map.mpr ⟨0, hz, ?_⟩
    unfold log10T
    norm_num

theorem C6_amended_witness :
    sweepLogs xConst16 yFive16 4 1
        = .ok (logStep ([((4 : ℤ), (0 : ℝ))].map Prod.snd))
      ∧ FloatV.negInf ∈ logStep ([((4 : ℤ), (0 : ℝ))].map Prod.snd) :=
  C6_amended xConst16 yFive16 4 1 [((4 : ℤ), (0 : ℝ))] fpoints_five16 (by simp)

/-- C7: for every series and valid window size, `DFA_Method` is unchanged by
a uniform additive offset of the amplitudes, and scaling the amplitudes by a
constant k scales the result exactly: `F(k·y) = |k| · F(y)`. -/
theorem C7_offset_scale (x y : List ℚ) (w : ℕ) (c k : ℚ) (hw : 2 ≤ w)
    (hwy : w ≤ y.length) (hxy : x.length = y.length) :
    DFA_Method x (y.map (fun a => a + c)) w = DFA_Method x y w
    ∧ DFA_Method x y w = .ok (specF y w)
    ∧ DFA_Method x (y.map (fun a => k * a)) w
        = .ok (((|k| : ℚ) : ℝ) * specF y w) := by
  refine ⟨?_, DFA_Method_ok x y w hw hwy hxy, ?_⟩
  · unfold DFA_Method
    rw [DFA_Method_msq_offset]
  · have h1 : DFA_Method_msq x (y.map (fun a => k * a)) w
        = .ok (specMSQ (y.map (fun a => k * a)) w) :=
      DFA_Method_msq_ok _ _ _ hw (by rw [List.length_map]; exact hwy)
        (by rw [List.length_map]; exact hxy)
    rw [specMSQ_smul] at h1
    unfold DFA_Method
    rw [h1]
    refine congrArg Py.ok ?_
    unfold specF
    push_cast
    rw [Real.sqrt_mul (by positivity), Real.sqrt_sq_eq_abs]

theorem C7_offset_scale_witness :
    DFA_Method (arange1 4) ((arange1 4).map (fun a => a + 7)) 2
        = DFA_Method (arange1 4) (arange1 4) 2
    ∧ DFA_Method (arange1 4) (arange1 4) 2 = .ok (specF (arange1 4) 2)
    ∧ DFA_Method (arange1 4) ((arange1 4).map (fun a => -3 * a)) 2
        = .ok (((|(-3 : ℚ)| : ℚ) : ℝ) * specF (arange1 4) 2) :=
  C7_offset_scale (arange1 4) (arange1 4) 2 7 (-3) (by omega)
    (by rw [arange1_length]; omega) rfl

/-- C8 counterexample: for amplitudes 1..12 with windowSize 4 the code
returns F = 1/2, not 0: the integration step makes the windows quadratic in
the index, so the linear fits leave residuals ±1/2 — refuting `F == 0`. -/
theorem C8_cex :
    DFA_Method (arange1 12) y12 4 = .ok ((1 : ℝ) / 2)
      ∧ ((1 : ℝ) / 2) ≠ 0 := by
  constructor
  · rw [DFA_Method_ok (arange1 12) y12 4 (by omega)
      (by rw [show y12.length = 12 from rfl]; omega)
      (by rw [arange1_length, show y12.length = 12 from rfl])]
    refine congrArg Py.ok ?_
    unfold specF
    rw [specMSQ_y12]
    rw [show ((1 / 4 : ℚ) : ℝ) = ((1 : ℝ) / 2) ^ 2 by norm_num]
    rw [Real.sqrt_sq (by norm_num)]
  · norm_num

/-- C8 amended: for amplitudes 1..12 (any length-12 time axis) and
windowSize 4 there are 3 complete windows and no remainder, and the returned
fluctuation is F = 1/2 (the integrated series is piecewise curved, so the
per-window linear fits leave residuals of magnitude 1/2). -/
theorem C8_amended (x : List ℚ) (hx : x.length = 12) :
    DFA_Method x y12 4 = .ok ((1 : ℝ) / 2)
      ∧ y12.length / 4 = 3 ∧ y12.length % 4 = 0 := by
  refine ⟨?_, rfl, rfl⟩
  rw [DFA_Method_ok x y12 4 (by omega)
    (by rw [show y12.length = 12 from rfl]; omega)
    (by rw [hx, show y12.length = 12 from rfl])]
  refine congrArg Py.ok ?_
  unfold specF
  rw [specMSQ_y12]
  rw [show ((1 / 4 : ℚ) : ℝ) = ((1 : ℝ) / 2) ^ 2 by norm_num]
  rw [Real.sqrt_sq (by norm_num)]

theorem C8_amended_witness :
    DFA_Method (arange1 12) y12 4 = .ok ((1 : ℝ) / 2)
      ∧ y12.length / 4 = 3 ∧ y12.length % 4 = 0 := by
  have h := C8_amended (arange1 12) (arange1_length 12)
  exact h

/-- C9: the `DFA_Method` of DFA.py and the `DFA_Method` of old_DFA.py return
the same F for every input: the remainder-folding path of the old version is
commented out, so both compute the identical pooled-RMS fluctuation over
complete windows. -/
theorem C9_old_equals_new :
    ∀ (x y : List ℚ) (w : ℕ),
      oldDFA.DFA_Method x y w = DFA_Method x y w
        ∧ oldDFA.DFA_Method_msq x y w = DFA_Method_msq x y w :=
  fun _ _ _ => ⟨rfl, rfl⟩

/-- C10: the F returned by `DFA_Method` does not depend on the values of the
time axis x, only on its length: the per-window regressor is the global
sample index 1..N, so any two time axes of the same length give identical
results. -/
theorem C10_x_values_irrelevant (x₁ x₂ y : List ℚ) (w : ℕ)
    (h : x₁.length = x₂.length) :
    DFA_Method x₁ y w = DFA_Method x₂ y w := by
  unfold DFA_Method
  rw [DFA_Method_msq_length_x x₁ x₂ y w h]

theorem C10_x_values_irrelevant_witness :
    DFA_Method [(5 : ℚ), 100, 3] (arange1 3) 2
      = DFA_Method [(0 : ℚ), 1, 2] (arange1 3) 2 :=
  C10_x_values_irrelevant [(5 : ℚ), 100, 3] [(0 : ℚ), 1, 2] (arange1 3) 2 rfl

end DFATool
